import Mathlib

/-!
Verification development for the lovely-injector patch engine
(crates/lovely-core).  The Rust code operates on UTF-8 byte buffers
backed by a rope; we embed buffers as lists of bytes (`List Nat`,
each element a byte value).  Pure functions of the source are
translated directly; external crates (the rope, the wildcard matcher,
the regex engine) are modelled from the specification or passed in as
oracle parameters, as noted at each definition.
-/

/-- A byte of a UTF-8 buffer. -/
abbrev Byte := Nat

/-- A text buffer, as the list of its bytes (Rust `str` / `crop::Rope`). -/
abbrev Buf := List Byte

/-- Conversion of an ASCII string literal to its byte buffer (used only to
write concrete examples; all example inputs are ASCII, where the char code
equals the byte). -/
def str2b (s : String) : Buf := s.data.map Char.toNat

/-- ASCII whitespace, matching Rust `char::is_whitespace` on the ASCII
range (the only range exercised here): HT, LF, VT, FF, CR, space. -/
def isWs (b : Byte) : Bool :=
  b == 32 || b == 9 || b == 10 || b == 13 || b == 11 || b == 12

/-- Rust `str::trim_start` (ASCII range). -/
def trimStart (l : Buf) : Buf := l.dropWhile isWs

/-- Rust `str::trim_end` (ASCII range). -/
def trimEnd (l : Buf) : Buf := (l.reverse.dropWhile isWs).reverse

/-- Rust `str::trim` (ASCII range): leading and trailing whitespace removed. -/
def trim (l : Buf) : Buf := trimEnd (trimStart l)

/-- A word character in the sense of `regex.rs`: ASCII alphanumeric or
underscore. -/
def isWordByte (b : Byte) : Bool :=
  (48 ≤ b && b ≤ 57) || (65 ≤ b && b ≤ 90) || (97 ≤ b && b ≤ 122) || b == 95

/-- Rust `str::split_inclusive` on a separator byte: the pieces of the
buffer, each piece keeping its terminating separator; the final piece may
lack the separator; the empty buffer yields no pieces.  This is also our
model of `crop::Rope::raw_lines` (line terminators included, no final
empty line after a trailing newline), per spec section 4.A. -/
def splitInclusive (sep : Byte) : Buf → List Buf
  | [] => []
  | b :: rest =>
    match splitInclusive sep rest with
    | [] => [[b]]
    | l :: ls => if b == sep then [b] :: l :: ls else (b :: l) :: ls

/-- `crop::Rope::byte_of_line` over the line list of the current buffer:
first-byte offset of line `n` (with `n` equal to the line count meaning
end of buffer; larger `n` is clamped, where the rope would panic). -/
def byteOfLine (lines : List Buf) (n : Nat) : Nat :=
  ((lines.take n).map List.length).sum

/-- Insert a buffer at a byte offset (`crop::Rope::insert`). -/
def insertAt (buf : Buf) (pos : Nat) (s : Buf) : Buf :=
  buf.take pos ++ s ++ buf.drop pos

/-- Delete a byte range (`crop::Rope::delete`, half-open `start..stop`). -/
def deleteRange (buf : Buf) (start stop : Nat) : Buf :=
  buf.take start ++ buf.drop stop

/-- Modelled from the spec: the `wildmatch` crate used for pattern lines
and glob targets is not part of this repository.  Spec section 4.B: `?`
matches exactly one character, `*` zero or more, everything else is
literal, whole-string match.  The star case tries every suffix of the
input, which is the defining semantics of the crate's backtracking
two-cursor algorithm. -/
def wildMatch : (pattern : Buf) → (input : Buf) → Bool
  | [], s => s.isEmpty
  | 42 :: ps, s => s.tails.any (fun t => wildMatch ps t)
  | 63 :: ps, s =>
    (match s with
     | [] => false
     | _ :: s2 => wildMatch ps s2)
  | p :: ps, s =>
    (match s with
     | [] => false
     | c :: s2 => p == c && wildMatch ps s2)

/-- `usize::saturating_add_signed`: add a signed delta to an unsigned
offset, clamping at `0` and at `usize::MAX`. -/
def satAddSigned (n : Nat) (d : Int) : Nat :=
  (min (max ((n : Int) + d) 0) ((2 ^ 64 - 1 : Nat) : Int)).toNat

/-! ## Patch data model (`patch/mod.rs`, `dump.rs`, `lib.rs`) -/

/-- `patch/mod.rs` `InsertPosition`. -/
inductive InsertPosition
  | at
  | before
  | after
  deriving DecidableEq, Repr

/-- `patch/copy.rs` `CopyPosition`. -/
inductive CopyPosition
  | prependPos
  | appendPos
  deriving DecidableEq, Repr

/-- `Target` (declared in the patch module, impl in `lib.rs`): a single
chunk name or a list of chunk names. -/
inductive Target
  | Single (s : Buf)
  | Multi (ss : List Buf)
  deriving DecidableEq, Repr

/-- `lib.rs` `Target::can_apply`: exact string equality against the chunk
name (or membership, for `Multi`). -/
def Target.can_apply : Target → Buf → Bool
  | .Single s, t => s == t
  | .Multi ss, t => ss.any (fun x => x == t)

/-- `lib.rs` `Target::insert_into`: add every target string of this
target to the target set (a `HashSet<String>` in the source). -/
def Target.insert_into : Target → Finset Buf → Finset Buf
  | .Single s, ts => insert s ts
  | .Multi ss, ts => ss.foldl (fun acc x => insert x acc) ts

/-- `dump.rs` `DebugPatchType`. -/
inductive DebugPatchType
  | Pattern
  | Regex
  | Copy
  deriving DecidableEq, Repr

/-- The structured warnings the engine logs and records.  The source
formats them as strings carrying the pattern, target and origin path;
only their presence and kind are load-bearing, so the formatting is
abstracted into constructors. -/
inductive Warning
  | noLines
  | noMatches
  | countMismatch (found wanted : Nat)
  | excessIgnored
  deriving DecidableEq, Repr

/-- `dump.rs` `PatchSource`. -/
structure PatchSource where
  file : String
  pattern : Option Buf
  patch_type : DebugPatchType
  deriving DecidableEq, Repr

/-- `dump.rs` `ByteRegion`: a contiguous byte span inserted or modified
by one patch application, with the signed byte-length change. -/
structure ByteRegion where
  start : Nat
  «end» : Nat
  delta : Int
  deriving DecidableEq, Repr

/-- `dump.rs` `ByteRegion::adjust`: adjust this region based on an edit
that occurred elsewhere. -/
def ByteRegion.adjust (r : ByteRegion) (edit_pos : Nat) (delta : Int) : ByteRegion :=
  if edit_pos ≤ r.start then
    { r with start := satAddSigned r.start delta, «end» := satAddSigned r.«end» delta }
  else if edit_pos < r.«end» then
    { r with «end» := satAddSigned r.«end» delta }
  else r

/-- `dump.rs` `ByteDebugEntry`. -/
structure ByteDebugEntry where
  patch_source : PatchSource
  regions : List ByteRegion
  warnings : Option (List Warning)
  deriving DecidableEq, Repr

/-- `dump.rs` `ByteDebugEntry::adjust`: adjust all regions in this entry
based on the edit that occurred. -/
def ByteDebugEntry.adjust (e : ByteDebugEntry) (edit_pos : Nat) (delta : Int) : ByteDebugEntry :=
  { e with regions := e.regions.map (fun r => r.adjust edit_pos delta) }

/-- `patch/table.rs` `apply_patches`, the region bookkeeping performed
before a new entry is appended: for each region of the new entry, every
prior entry is adjusted with that region's start and delta. -/
def adjustPrevEntries (entries : List ByteDebugEntry) (regions : List ByteRegion) :
    List ByteDebugEntry :=
  regions.foldl (fun es r => es.map (fun e => e.adjust r.start r.delta)) entries

/-! ## Pattern patches (`patch/pattern.rs`) -/

/-- `patch/pattern.rs` `PatternPatch`.  The `overwrite` field (legacy,
never read) is kept for shape; `name` is unused by `apply`. -/
structure PatternPatch where
  pattern : Buf
  position : InsertPosition
  target : Target
  payload : Buf
  match_indent : Bool
  times : Option Nat
  overwrite : Bool := false
  name : Option String := none
  deriving DecidableEq, Repr

namespace PatternPatch

/-- `self.pattern.lines().map(trim).map(WildMatch::new)`: the trimmed
wildcard lines of the pattern.  Rust `str::lines` strips terminators and
yields no final empty line, which after `trim` coincides with trimming
each inclusive piece. -/
def wmLines (p : PatternPatch) : List Buf :=
  (splitInclusive 10 p.pattern).map trim

/-- The window of `n` lines starting at line `i` matches iff the window
is full and each of its lines, trimmed, matches the corresponding
wildcard (`pattern.rs` lines 74-80). -/
def windowMatches (wm : List Buf) (lines : List Buf) (i : Nat) : Bool :=
  ((lines.drop i).take wm.length).length == wm.length &&
    (((lines.drop i).take wm.length).zip wm).all (fun sw => wildMatch sw.2 (trim sw.1))

/-- Leading indent of a matched first line: bytes that are a space or a
tab (`pattern.rs` lines 82-88). -/
def leadingIndent (l : Buf) : Buf := l.takeWhile (fun b => b == 32 || b == 9)

/-- The scan loop of `pattern.rs` lines 71-97: slide a window of
`wm.length` lines over the buffer's lines starting at line `i`; on a hit
record the line index (and, under `match_indent`, the first line's
indent) and advance by the window size, otherwise advance by one.
`fuel` bounds the recursion; `lines.length + 1` steps always suffice
when `wm` is nonempty (the empty-pattern case returns before the loop in
the source). -/
def findMatchesGo (wm : List Buf) (lines : List Buf) (mi : Bool) :
    Nat → Nat → List (Nat × Buf)
  | 0, _ => []
  | fuel + 1, i =>
    if i + wm.length ≤ lines.length then
      if windowMatches wm lines i then
        (i, if mi then leadingIndent (lines.getD i []) else []) ::
          findMatchesGo wm lines mi fuel (i + wm.length)
      else
        findMatchesGo wm lines mi fuel (i + 1)
    else []

/-- All matches found by the scan over the original buffer's lines. -/
def foundMatches (p : PatternPatch) (lines : List Buf) : List (Nat × Buf) :=
  findMatchesGo (wmLines p) lines p.match_indent (lines.length + 1) 0

/-- The matches actually applied: `matches.truncate(times)` when more
matches were found than `times` asked for (`pattern.rs` lines 107-133). -/
def appliedMatches (p : PatternPatch) (lines : List Buf) : List (Nat × Buf) :=
  let m := foundMatches p lines
  match p.times with
  | none => m
  | some t => if m.length > t then m.take t else m

/-- The warnings pushed by the `times` bookkeeping (`pattern.rs` lines
106-134): a count-mismatch warning when fewer matches were found than
wanted; a count-mismatch warning plus the excess-ignored warning when
more were found. -/
def timesWarnings (p : PatternPatch) (lines : List Buf) : List Warning :=
  let m := (foundMatches p lines).length
  match p.times with
  | none => []
  | some t =>
    (if m < t then [Warning.countMismatch m t] else []) ++
      (if m > t then [Warning.countMismatch m t, Warning.excessIgnored] else [])

/-- The payload inserted for one match: each inclusive payload line
prefixed with the captured indent, then a final newline appended when
the configured payload does not end with one (`pattern.rs` lines
147-154). -/
def indentedPayload (p : PatternPatch) (indent : Buf) : Buf :=
  let base := ((splitInclusive 10 p.payload).map (fun l => indent ++ l)).flatten
  if p.payload.getLast? == some 10 then base else base ++ [10]

/-- One iteration of the edit loop of `pattern.rs` lines 142-177, over
the state (current buffer, running line delta, regions so far).  Byte
offsets are recomputed from the current buffer, as the source queries
the mutated rope. -/
def editStep (p : PatternPatch) (n : Nat) (st : Buf × Int × List ByteRegion)
    (m : Nat × Buf) : Buf × Int × List ByteRegion :=
  let buf := st.1
  let line_delta := st.2.1
  let regs := st.2.2
  let adjusted := satAddSigned m.1 line_delta
  let lines := splitInclusive 10 buf
  let start := byteOfLine lines adjusted
  let stop := byteOfLine lines (adjusted + n)
  let payload := indentedPayload p m.2
  let payload_lines : Int := (splitInclusive 10 payload).length
  let payload_bytes := payload.length
  match p.position with
  | .before =>
    (insertAt buf start payload, line_delta + payload_lines,
      regs ++ [⟨start, start + payload_bytes, (payload_bytes : Int)⟩])
  | .after =>
    (insertAt buf stop payload, line_delta + payload_lines,
      regs ++ [⟨stop, stop + payload_bytes, (payload_bytes : Int)⟩])
  | .at =>
    (insertAt (deleteRange buf start stop) start payload,
      line_delta + payload_lines - (n : Int),
      regs ++ [⟨start, start + payload_bytes, (payload_bytes : Int) - ((stop - start : Nat) : Int)⟩])

/-- A warning-only debug entry (`pattern.rs` `debug_from_warning_string`). -/
def warnEntry (p : PatternPatch) (path : String) (w : Warning) : ByteDebugEntry :=
  { patch_source := { file := path, pattern := some p.pattern, patch_type := .Pattern }
    regions := []
    warnings := some [w] }

/-- `patch/pattern.rs` `PatternPatch::apply`.  Returns `none` when the
target does not match (the rope is untouched), otherwise the edited
buffer and the debug entry. -/
def apply (p : PatternPatch) (target : Buf) (buf : Buf) (path : String) :
    Option (Buf × ByteDebugEntry) :=
  if ¬ p.target.can_apply target then none
  else if (wmLines p).isEmpty then some (buf, warnEntry p path .noLines)
  else
    let lines := splitInclusive 10 buf
    if (foundMatches p lines).isEmpty then some (buf, warnEntry p path .noMatches)
    else
      let res := (appliedMatches p lines).foldl (editStep p (wmLines p).length) (buf, 0, [])
      some (res.1,
        { patch_source := { file := path, pattern := some p.pattern, patch_type := .Pattern }
          regions := res.2.2
          warnings :=
            if (timesWarnings p lines).isEmpty then none else some (timesWarnings p lines) })

end PatternPatch

/-! ## Copy patches (`patch/copy.rs`) -/

/-- `patch/copy.rs` `CopyPatch`.  Source paths are opaque strings here;
the bytes behind them are supplied by a filesystem oracle at apply time,
because `CopyPatch::apply` calls `fs::read_to_string` for each source. -/
structure CopyPatch where
  position : CopyPosition
  target : Target
  sources : Option (List String)
  payload : Option Buf
  name : Option String := none

namespace CopyPatch

/-- One prepend-or-append of a single item (`patch/copy.rs` lines 55-66
and 71-82): insert a newline at the edge, then the item at the same
edge, and grow the corresponding inserted-byte counter.  State is
(buffer, before, after). -/
def placeItem (pos : CopyPosition) (st : Buf × Nat × Nat) (contents : Buf) :
    Buf × Nat × Nat :=
  let buf := st.1
  match pos with
  | .prependPos =>
    (insertAt (insertAt buf 0 [10]) 0 contents, st.2.1 + (contents.length + 1), st.2.2)
  | .appendPos =>
    let b1 := insertAt buf buf.length [10]
    (insertAt b1 b1.length contents, st.2.1, st.2.2 + (contents.length + 1))

/-- The source loop of `patch/copy.rs` lines 45-68: read each source
file (`none` models the panic on a failed read) and place its contents
at the configured edge. -/
def readPlace (read : String → Option Buf) (pos : CopyPosition) :
    List String → Buf × Nat × Nat → Option (Buf × Nat × Nat)
  | [], st => some st
  | s :: rest, st =>
    match read s with
    | none => none
    | some contents => readPlace read pos rest (placeItem pos st contents)

/-- `patch/copy.rs` `CopyPatch::apply`.  The outer `Option` is the panic
on a failed source read (`fs::read_to_string(..).unwrap_or_else(panic)`);
the inner `Option` is `None` when the target does not match. -/
def apply (read : String → Option Buf) (p : CopyPatch) (target : Buf) (buf : Buf)
    (path : String) : Option (Option (Buf × ByteDebugEntry)) :=
  if ¬ p.target.can_apply target then some none
  else do
    let st ← readPlace read p.position (p.sources.getD []) (buf, 0, 0)
    let st :=
      match p.payload with
      | none => st
      | some payload => placeItem p.position st payload
    let buf := st.1
    let before := st.2.1
    let after := st.2.2
    let regs :=
      (if before ≠ 0 then [ByteRegion.mk 0 before (before : Int)] else []) ++
        (if after ≠ 0 then [ByteRegion.mk (buf.length - after) buf.length (after : Int)] else [])
    pure (some (buf,
      { patch_source := { file := path, pattern := none, patch_type := .Copy }
        regions := regs
        warnings := none }))

end CopyPatch

/-! ## Module patches (`patch/module.rs`), abstracted

`ModulePatch::apply` talks to the Lua interpreter and the filesystem; it
never touches the text buffer.  Only its target gate (`before !=
file_name` returns `false` immediately) and its success bit matter to
the rewrite engine, so the Lua load/eval outcome is an oracle field. -/

structure ModulePatch where
  before : Buf
  load_now : Bool
  /-- Oracle: outcome of the Lua load (and eval, for `load_now`) in
  `module.rs`; `true` means the module was registered. -/
  luaOk : Bool

/-- `patch/module.rs` `ModulePatch::apply`, reduced to its effect on the
rewrite engine: `false` without side effects when `before` differs from
the chunk name, otherwise the oracle outcome. -/
def ModulePatch.apply (p : ModulePatch) (file_name : Buf) : Bool :=
  p.before == file_name && p.luaOk

/-! ## Variable interpolation (`patch/vars.rs`) -/

/-- The literal head of an interpolation token: two opening curly braces
followed by the word lovely and a colon. -/
def interpHeader : Buf := [123, 123, 108, 111, 118, 101, 108, 121, 58]

/-- `patch/vars.rs` `apply_var_interp` on one line, specialised to the
fixed regex (header, then one-or-more word characters, then two closing
curly braces): scan left to right; at a full non-overlapping token
substitute the variable's value (without rescanning it) or panic
(`none`) when the variable is unregistered; otherwise advance one byte.
`fuel` bounds the recursion; `l.length` always suffices since every step
consumes at least one byte. -/
def varInterpGo (vars : Buf → Option Buf) : Nat → Buf → Option Buf
  | 0, l => some l
  | _ + 1, [] => some []
  | fuel + 1, l@(b :: rest) =>
    if interpHeader.isPrefixOf l then
      let name := (l.drop interpHeader.length).takeWhile isWordByte
      let tail := l.drop (interpHeader.length + name.length)
      if ¬ name.isEmpty && [125, 125].isPrefixOf tail then
        match vars name with
        | none => none
        | some v => (varInterpGo vars fuel (tail.drop 2)).map (fun r => v ++ r)
      else (varInterpGo vars fuel rest).map (fun r => b :: r)
    else (varInterpGo vars fuel rest).map (fun r => b :: r)

/-- `apply_var_interp` on one line. -/
def apply_var_interp (vars : Buf → Option Buf) (line : Buf) : Option Buf :=
  varInterpGo vars line.length line

/-- The interpolation pass of `apply_patches` (`patch/table.rs` lines
192-204): split the buffer inclusively on newlines, interpolate each
line, and concatenate. -/
def interpLines (vars : Buf → Option Buf) (buf : Buf) : Option Buf :=
  ((splitInclusive 10 buf).mapM (apply_var_interp vars)).map List.flatten

/-! ## Regex patches (`patch/regex.rs`)

The regex engine itself (`regex_cursor`) and the capture interpolation
helper (`regex_automata::util::interpolate`) are external crates; they
enter as oracles.  Everything the repository's own code does with their
results — the `times` accounting, root-capture resolution, the
identifier-boundary guard, the position edit and the running byte delta
— is embedded directly. -/

/-- The captures of one regex match, as the source consumes them:
`get_group` by index, and the group-name-to-index map
(`groups.group_info().to_index(pid, name)`). -/
structure CapturesM where
  group : Nat → Option (Nat × Nat)
  nameToIndex : String → Option Nat

/-- The identifier-boundary guard of `regex.rs` lines 174-208, verbatim:
prepend a space when the payload starts with a word character and the
byte left of the insertion point is one; then append a space when the
(possibly prepended) payload ends with a word character and the byte at
the right insertion point is one.  The left point is the adjusted root
span's end for `After` and its start otherwise; the right point is the
start for `Before` and the end otherwise. -/
def guardPayload (rope : Buf) (payload : Buf) (pos : InsertPosition)
    (target_start target_end : Nat) : Buf :=
  let p1 :=
    if (payload.head?.map isWordByte).getD false then
      let pre_pt := if pos = .after then target_end else target_start
      if pre_pt > 0 then
        if isWordByte (rope.getD (pre_pt - 1) 0) then 32 :: payload else payload
      else payload
    else payload
  if (p1.getLast?.map isWordByte).getD false then
    let post_pt := if pos = .before then target_start else target_end
    if post_pt < rope.length then
      if isWordByte (rope.getD post_pt 0) then p1 ++ [32] else p1
    else p1
  else p1

/-- `patch/regex.rs` `RegexPatch`.  `pattern` and `verbose` only feed the
external regex builder, which is folded into the `captures` oracle; they
are kept for shape.  `interp` is the oracle for
`interpolate::string(template, ...)` reading capture spans from the
current rope at delta-adjusted offsets. -/
structure RegexPatch where
  target : Buf
  pattern : String
  position : InsertPosition
  root_capture : Option String
  payload : Buf
  line_prepend : Buf
  times : Option Nat
  verbose : Bool := false
  captures : Buf → List CapturesM
  interp : Buf → CapturesM → Int → Buf → Buf

namespace RegexPatch

/-- The capture list after the `times` truncation of `regex.rs` lines
69-88. -/
def appliedCaptures (p : RegexPatch) (rope : Buf) : List CapturesM :=
  let c := p.captures rope
  match p.times with
  | none => c
  | some t => if c.length > t then c.take t else c

/-- The warnings logged by the `times` accounting of `regex.rs` lines
69-88 (count mismatch when fewer matches than wanted; count mismatch
plus excess-ignored when more). -/
def timesWarnings (p : RegexPatch) (rope : Buf) : List Warning :=
  let m := (p.captures rope).length
  match p.times with
  | none => []
  | some t =>
    (if m < t then [Warning.countMismatch m t] else []) ++
      (if m > t then [Warning.countMismatch m t, Warning.excessIgnored] else [])

/-- Root-capture resolution of `regex.rs` lines 122-139: strip dollar
signs from the configured name (default the string 0), parse it as an
index if it is all digits, else look the name up; `none` models the
panic when the group cannot be found. -/
def resolveRoot (p : RegexPatch) (groups : CapturesM) : Option (Nat × Nat) :=
  let group_name := ((p.root_capture.getD "0").data.filter (fun c => c ≠ '$')).asString
  match group_name.toNat? with
  | some idx => groups.group idx
  | none =>
    match groups.nameToIndex group_name with
    | some idx => groups.group idx
    | none => none

/-- The body of the per-capture loop of `regex.rs` lines 94-229 over the
state (rope, running byte delta).  `none` models the panics (missing
group 0, unresolvable root capture).  The cast `(span as isize + delta)
as usize` is modelled with `Int.toNat` (negative results, which the cast
would wrap, do not occur on engine-produced spans). -/
def applyGroups (p : RegexPatch) (st : Buf × Int) (groups : CapturesM) :
    Option (Buf × Int) := do
  let rope := st.1
  let delta := st.2
  let _base ← groups.group 0
  let line_prepend := p.interp p.line_prepend groups delta rope
  let tg ← resolveRoot p groups
  let target_start := ((tg.1 : Int) + delta).toNat
  let target_end := ((tg.2 : Int) + delta).toNat
  let new_payload := ((splitInclusive 10 p.payload).map (fun l => line_prepend ++ l)).flatten
  let payload := p.interp new_payload groups delta rope
  let payload := guardPayload rope payload p.position target_start target_end
  match p.position with
  | .before =>
    pure (insertAt rope target_start payload, delta + (payload.length : Int))
  | .after =>
    pure (insertAt rope target_end payload, delta + (payload.length : Int))
  | .at =>
    pure (insertAt (deleteRange rope target_start target_end) target_start payload,
      delta - ((tg.2 - tg.1 : Nat) : Int) + (payload.length : Int))

/-- `patch/regex.rs` `RegexPatch::apply`: target gate, no-match warning,
`times` accounting, then the capture loop.  Returns the new rope, the
applied flag the source returns, and the warnings it logs; `none` models
a panic inside the loop. -/
def apply (p : RegexPatch) (target : Buf) (rope : Buf) :
    Option (Buf × Bool × List Warning) :=
  if p.target ≠ target then some (rope, false, [])
  else if (p.captures rope).isEmpty then some (rope, false, [Warning.noMatches])
  else do
    let st ← (appliedCaptures p rope).foldlM (applyGroups p) (rope, 0)
    pure (st.1, true, timesWarnings p rope)

end RegexPatch

/-! ## Patch table (`patch/table.rs`, `lib.rs`) -/

/-- The patch sum type of `patch/mod.rs`, restricted to the variants the
snapshot's rewrite loop can actually consume: in this source tree
`RegexPatch::apply` returns a bare `bool` and records no debug entry,
which does not fit the `Option<ByteDebugEntry>` treatment the cited
`patch/table.rs` loop gives pattern and regex patches, so regex patches
are embedded standalone above and the catalog covers the remaining
variants. -/
inductive Patch
  | pattern (p : PatternPatch)
  | copy (p : CopyPatch)
  | module (p : ModulePatch)

/-- Whether a patch's own target gate matches the (already
at-stripped) chunk name: the first check every `apply` performs. -/
def Patch.matchesTarget : Patch → Buf → Bool
  | .pattern p, t => p.target.can_apply t
  | .copy p, t => p.target.can_apply t
  | .module p, t => p.before == t

/-- Stable insertion of `itertools::sorted_by_key`: an element is placed
after every element whose key is less than or equal to its own. -/
def insertByPrio {α : Type} (key : α → Int) (x : α) : List α → List α
  | [] => [x]
  | y :: ys => if key y ≤ key x then y :: insertByPrio key x ys else x :: y :: ys

/-- Stable sort by ascending priority (ties keep input order), the
behaviour of `sorted_by_key` on each patch stream. -/
def sortByPrio {α : Type} (key : α → Int) : List α → List α
  | [] => []
  | x :: xs => insertByPrio key x (sortByPrio key xs)

/-- `str::strip_prefix` of one leading commercial-at, as both
`needs_patching` and `apply_patches` do first. -/
def stripAt (t : Buf) : Buf := if t.head? == some 64 then t.tail else t

/-- `patch/table.rs` `PatchTable` (paths and the mod dir omitted;
`vars` is the name-to-value mapping as a function). -/
structure PatchTable where
  targets : Finset Buf
  glob_targets : List Buf
  patches : List (Patch × Int × String)
  vars : Buf → Option Buf

/-- `patch/table.rs` `PatchTable::needs_patching`: strip a leading
commercial-at, check the exact-target set, then fall back to testing
each glob target. -/
def PatchTable.needs_patching (tbl : PatchTable) (target : Buf) : Bool :=
  let target := stripAt target
  if target ∈ tbl.targets then true
  else tbl.glob_targets.any (fun g => wildMatch g target)

/-- The copy-patch loop step of `patch/table.rs` lines 152-165 over the
state (rope, debug entries, patch count): on a produced entry, adjust
every prior entry with each of its regions, bump the count, append the
entry.  `none` propagates the read panic. -/
def copyStep (read : String → Option Buf) (target : Buf)
    (st : Buf × List ByteDebugEntry × Nat) (y : CopyPatch × Int × String) :
    Option (Buf × List ByteDebugEntry × Nat) := do
  match ← CopyPatch.apply read y.1 target st.1 y.2.2 with
  | none => pure st
  | some (buf, entry) =>
    pure (buf, adjustPrevEntries st.2.1 entry.regions ++ [entry], st.2.2 + 1)

/-- The pattern-patch loop step of `patch/table.rs` lines 167-187: same
bookkeeping, but the count is bumped only when the entry carries at
least one region. -/
def patternStep (target : Buf) (st : Buf × List ByteDebugEntry × Nat)
    (y : PatternPatch × Int × String) : Buf × List ByteDebugEntry × Nat :=
  match PatternPatch.apply y.1 target st.1 y.2.2 with
  | none => st
  | some (buf, entry) =>
    (buf, adjustPrevEntries st.2.1 entry.regions ++ [entry],
      st.2.2 + if entry.regions.isEmpty then 0 else 1)

/-- `patch/table.rs` `PatchTable::apply_patches`: strip the chunk name,
build the three priority-sorted streams, run the module loop (count
only), the copy loop, the pattern loop, then the variable-interpolation
pass.  Returns the patched buffer, the byte debug entries, and the patch
count; `none` models the panics (failed copy-source read, unregistered
variable). -/
def PatchTable.apply_patches (read : String → Option Buf) (tbl : PatchTable)
    (target buf : Buf) : Option (Buf × List ByteDebugEntry × Nat) := do
  let target := stripAt target
  let module_patches :=
    sortByPrio (fun y => y.2.1)
      ((tbl.patches.filterMap
        (fun y => match y.1 with | .module m => some (m, y.2) | _ => none)).filter
        (fun y => y.1.load_now))
  let copy_patches :=
    sortByPrio (fun y => y.2.1)
      (tbl.patches.filterMap
        (fun y => match y.1 with | .copy c => some (c, y.2) | _ => none))
  let pattern_patches :=
    sortByPrio (fun y => y.2.1)
      (tbl.patches.filterMap
        (fun y => match y.1 with | .pattern pp => some (pp, y.2) | _ => none))
  let mcount := module_patches.foldl
    (fun n y => if ModulePatch.apply y.1 target then n + 1 else n) 0
  let st ← copy_patches.foldlM (copyStep read target) (buf, [], mcount)
  let st := pattern_patches.foldl (patternStep target) st
  let patched ← interpLines tbl.vars st.1
  pure (patched, st.2.1, st.2.2)

/-! ## Reload (`lib.rs` lines 41-65)

`reload_patches` runs `PatchTable::load` inside `catch_unwind`; only on
success does it take the write lock and overwrite the published table.
The build outcome is the `Except` argument; the result is the table
visible afterwards, the boolean pushed to Lua, the optional error
string, and the number of Lua return values. -/

def reload_patches (current : PatchTable) (build : Except String PatchTable) :
    PatchTable × Bool × Option String × Nat :=
  match build with
  | .ok t => (t, true, none, 1)
  | .error e => (current, false, some e, 2)

/-! ## Auxiliary predicates and concrete instances used below -/

/-- Read every source path in order; `none` as soon as one read fails
(used to state what the copy-patch source loop computes). -/
def readAll (read : String → Option Buf) : List String → Option (List Buf)
  | [] => some []
  | s :: rest =>
    match read s with
    | none => none
    | some c =>
      match readAll read rest with
      | none => none
      | some cs => some (c :: cs)

/-- The target strings carried by a `Target`. -/
def Target.strings : Target → List Buf
  | .Single s => [s]
  | .Multi ss => ss

/-- Whether a catalog entry is a module patch. -/
def Patch.isModule : Patch → Bool
  | .module _ => true
  | _ => false

/-- Debug entries that the `apply_patches` loop counts as a successful
application: every copy entry, and the pattern entries carrying at least
one region. -/
def countedEntry (e : ByteDebugEntry) : Bool :=
  e.patch_source.patch_type == .Copy || !e.regions.isEmpty

/-- The pattern patch of spec scenario 2: pattern B, position At,
payload two replacement lines. -/
def scenario2Patch : PatternPatch :=
  { pattern := str2b "B", position := .at, target := .Single (str2b "T"),
    payload := str2b "B1\nB2", match_indent := false, times := none }

/-- A single-line pattern patch whose matched buffer line carries
trailing whitespace (distinguishes trimming from left-trimming). -/
def trailingWsPatch : PatternPatch :=
  { pattern := str2b "B", position := .before, target := .Single (str2b "T"),
    payload := str2b "P", match_indent := false, times := none }

/-- A pattern patch asking for two applications (`times = 2`). -/
def timesTwoPatch : PatternPatch :=
  { pattern := str2b "B", position := .before, target := .Single (str2b "T"),
    payload := str2b "P", match_indent := false, times := some 2 }

/-- A regex patch asking for one application, whose oracle finds no
matches on any rope. -/
def timesOneRegex : RegexPatch :=
  { target := str2b "T", pattern := "B", position := .before, root_capture := none,
    payload := str2b "P", line_prepend := [], times := some 1,
    captures := fun _ => [], interp := fun t _ _ _ => t }

/-- A catalog variable mapping registering A as x. -/
def varsAx : Buf → Option Buf := fun n => if n == [65] then some [120] else none

/-- An empty catalog carrying the variable binding A = x. -/
def tblVarsOnly : PatchTable :=
  { targets := ∅, glob_targets := [], patches := [], vars := varsAx }

/-- A buffer consisting of a single interpolation token naming A. -/
def bufTokenA : Buf := interpHeader ++ [65, 125, 125]

/-- A catalog holding one pattern patch that matches twice in the buffer
used against it. -/
def tblTwoHits : PatchTable :=
  { targets := ∅, glob_targets := [],
    patches := [(.pattern trailingWsPatch, 0, "p")], vars := fun _ => none }

/-- The copy patch of spec scenario 4: payload only, position Append. -/
def scenario4Patch : CopyPatch :=
  { position := .appendPos, target := .Single (str2b "T"), sources := none,
    payload := some (str2b "-- end") }

/-- A copy patch reading one source file s, no payload, position Append. -/
def oneSourcePatch : CopyPatch :=
  { position := .appendPos, target := .Single (str2b "T"), sources := some ["s"],
    payload := none }

/-- A copy patch with one source and a payload, position Prepend. -/
def prependWitnessPatch : CopyPatch :=
  { position := .prependPos, target := .Single (str2b "T"), sources := some ["s"],
    payload := some (str2b "Q") }

/-- A filesystem where s holds the byte a. -/
def fsA : String → Option Buf := fun p => if p == "s" then some [97] else none

/-- A filesystem where s holds the byte b. -/
def fsB : String → Option Buf := fun p => if p == "s" then some [98] else none

/-! ## Theorems -/

/-- The pieces of `splitInclusive` concatenate back to the input. -/
theorem splitInclusive_flatten (sep : Byte) (l : Buf) :
    (splitInclusive sep l).flatten = l := by
  induction l with
  | nil => rfl
  | cons b rest ih =>
    simp only [splitInclusive]
    cases h : splitInclusive sep rest with
    | nil => simp [h ▸ ih]
    | cons x xs =>
      rw [h] at ih
      simp only [List.flatten_cons] at ih
      by_cases hb : b == sep
      · simp [hb, ih]
      · simp [hb, ih]

/-- Every piece produced by `splitInclusive` is an infix of the input. -/
theorem splitInclusive_piece_within {sep : Byte} {l : Buf} {x : Buf}
    (hx : x ∈ splitInclusive sep l) : x <:+: l := by
  obtain ⟨s, t, hst⟩ := List.append_of_mem hx
  refine ⟨s.flatten, t.flatten, ?_⟩
  have := splitInclusive_flatten sep l
  rw [hst] at this
  simpa [List.flatten_append] using this

/-- `insertAt` at the end of the buffer appends. -/
theorem insertAt_length (buf s : Buf) : insertAt buf buf.length s = buf ++ s := by
  simp [insertAt]

/-- `insertAt` at offset zero prepends. -/
theorem insertAt_zero (buf s : Buf) : insertAt buf 0 s = s ++ buf := by
  simp [insertAt]

/-- C2.  `ByteRegion::adjust` (dump.rs lines 46-56) has exactly the three
claimed behaviours — a region wholly strictly before the edit position is
unchanged, a region straddling it has only its end shifted, and a region
beginning at or after it has both endpoints shifted (saturating usize
arithmetic) — and in `apply_patches` (table.rs lines 154-187) each newly
produced debug entry first adjusts every previously stored entry with
each of its regions before being appended. -/
theorem region_adjust_and_rewrite_bookkeeping :
    (∀ (r : ByteRegion) (e : Nat) (d : Int),
        r.start < e → r.«end» ≤ e → r.adjust e d = r) ∧
    (∀ (r : ByteRegion) (e : Nat) (d : Int),
        r.start < e → e < r.«end» →
        (r.adjust e d).start = r.start ∧ (r.adjust e d).«end» = satAddSigned r.«end» d) ∧
    (∀ (r : ByteRegion) (e : Nat) (d : Int),
        e ≤ r.start →
        (r.adjust e d).start = satAddSigned r.start d ∧
          (r.adjust e d).«end» = satAddSigned r.«end» d) ∧
    (∀ (read : String → Option Buf) (target : Buf)
        (st : Buf × List ByteDebugEntry × Nat) (y : CopyPatch × Int × String)
        (buf : Buf) (entry : ByteDebugEntry),
        CopyPatch.apply read y.1 target st.1 y.2.2 = some (some (buf, entry)) →
        copyStep read target st y =
          some (buf, adjustPrevEntries st.2.1 entry.regions ++ [entry], st.2.2 + 1)) ∧
    (∀ (target : Buf) (st : Buf × List ByteDebugEntry × Nat)
        (y : PatternPatch × Int × String) (buf : Buf) (entry : ByteDebugEntry),
        PatternPatch.apply y.1 target st.1 y.2.2 = some (buf, entry) →
        patternStep target st y =
          (buf, adjustPrevEntries st.2.1 entry.regions ++ [entry],
            st.2.2 + if entry.regions.isEmpty then 0 else 1)) := by
  refine ⟨?_, ?_, ?_, ?_, ?_⟩
  · intro r e d h1 h2
    unfold ByteRegion.adjust
    rw [if_neg (by omega), if_neg (by omega)]
  · intro r e d h1 h2
    unfold ByteRegion.adjust
    rw [if_neg (by omega), if_pos h2]
    exact ⟨rfl, rfl⟩
  · intro r e d h
    unfold ByteRegion.adjust
    rw [if_pos h]
    exact ⟨rfl, rfl⟩
  · intro read target st y buf entry h
    simp [copyStep, h]
  · intro target st y buf entry h
    simp [patternStep, h]

/-- Witness for C2 at concrete regions, a concrete copy patch and a
concrete pattern patch. -/
theorem region_adjust_and_rewrite_bookkeeping_witness :
    (ByteRegion.adjust ⟨2, 4, 1⟩ 5 3 = ⟨2, 4, 1⟩) ∧
    ((ByteRegion.adjust ⟨2, 9, 1⟩ 5 3).start = 2 ∧
      (ByteRegion.adjust ⟨2, 9, 1⟩ 5 3).«end» = satAddSigned 9 3) ∧
    ((ByteRegion.adjust ⟨5, 9, 1⟩ 5 3).start = satAddSigned 5 3 ∧
      (ByteRegion.adjust ⟨5, 9, 1⟩ 5 3).«end» = satAddSigned 9 3) ∧
    copyStep (fun _ => none) (str2b "T") (str2b "X", [], 0) (scenario4Patch, 0, "p") =
      some (str2b "X\n-- end",
        adjustPrevEntries [] [⟨1, 8, 7⟩] ++
          [⟨⟨"p", none, .Copy⟩, [⟨1, 8, 7⟩], none⟩], 0 + 1) ∧
    patternStep (str2b "T") (str2b "A\nB\nC\n", [], 0) (scenario2Patch, 0, "p") =
      (str2b "A\nB1\nB2\nC\n",
        adjustPrevEntries [] [⟨2, 8, 4⟩] ++
          [⟨⟨"p", some (str2b "B"), .Pattern⟩, [⟨2, 8, 4⟩], none⟩],
        0 + if ([⟨2, 8, 4⟩] : List ByteRegion).isEmpty then 0 else 1) :=
  ⟨region_adjust_and_rewrite_bookkeeping.1 ⟨2, 4, 1⟩ 5 3 (by decide) (by decide),
   region_adjust_and_rewrite_bookkeeping.2.1 ⟨2, 9, 1⟩ 5 3 (by decide) (by decide),
   region_adjust_and_rewrite_bookkeeping.2.2.1 ⟨5, 9, 1⟩ 5 3 (by decide),
   region_adjust_and_rewrite_bookkeeping.2.2.2.1 (fun _ => none) (str2b "T")
     (str2b "X", [], 0) (scenario4Patch, 0, "p") (str2b "X\n-- end")
     ⟨⟨"p", none, .Copy⟩, [⟨1, 8, 7⟩], none⟩ (by decide),
   region_adjust_and_rewrite_bookkeeping.2.2.2.2 (str2b "T")
     (str2b "A\nB\nC\n", [], 0) (scenario2Patch, 0, "p") (str2b "A\nB1\nB2\nC\n")
     ⟨⟨"p", some (str2b "B"), .Pattern⟩, [⟨2, 8, 4⟩], none⟩ (by decide)⟩

/-- C10.  `reload_patches` (lib.rs lines 41-65) is transactional: a
successful build fully replaces the published table and reports true; a
failed build leaves the published table untouched and reports false
together with the error string. -/
theorem reload_patches_transactional :
    (∀ (cur t : PatchTable), reload_patches cur (.ok t) = (t, true, none, 1)) ∧
    (∀ (cur : PatchTable) (e : String),
      reload_patches cur (.error e) = (cur, false, some e, 2)) :=
  ⟨fun _ _ => rfl, fun _ _ => rfl⟩

/-- C3.  The identifier-boundary guard of `RegexPatch::apply` (regex.rs
lines 174-208): exactly one space is inserted at an edge iff the payload's
adjacent byte is a word character and the buffer byte just outside the
insertion point is a word character; otherwise zero.  The left edge is the
adjusted root span's end for After and its start for Before and At; the
right edge is the start for Before and the end for After and At. -/
theorem regex_identifier_boundary_guard (rope payload : Buf) (pos : InsertPosition)
    (ts te : Nat) :
    guardPayload rope payload pos ts te =
      (if ((payload.head?.map isWordByte).getD false = true
            ∧ 0 < (if pos = .after then te else ts)
            ∧ isWordByte (rope.getD ((if pos = .after then te else ts) - 1) 0) = true)
       then [32] else [])
      ++ payload ++
      (if ((payload.getLast?.map isWordByte).getD false = true
            ∧ (if pos = .before then ts else te) < rope.length
            ∧ isWordByte (rope.getD (if pos = .before then ts else te) 0) = true)
       then [32] else []) := by
  rcases payload with _ | ⟨h, tl⟩
  · simp [guardPayload]
  · unfold guardPayload
    generalize (if pos = InsertPosition.after then te else ts) = pre
    generalize (if pos = InsertPosition.before then ts else te) = post
    by_cases c1 : isWordByte h = true <;>
    by_cases c2 : 0 < pre <;>
    by_cases c3 : isWordByte (rope.getD (pre - 1) 0) = true <;>
    by_cases c4 : (Option.map isWordByte (h :: tl).getLast?).getD false = true <;>
    by_cases c5 : post < rope.length <;>
    by_cases c6 : isWordByte (rope.getD post 0) = true <;>
    simp_all [List.getLast?_cons_cons] <;> (try simp [not_lt.mpr c5])

/-- Each iteration of the pattern edit loop appends exactly one region
(lines 158-176 of pattern.rs: every position arm pushes one
`ByteRegion`). -/
theorem patternEditStep_regions (p : PatternPatch) (n : Nat)
    (st : Buf × Int × List ByteRegion) (m : Nat × Buf) :
    ∃ r : ByteRegion, (PatternPatch.editStep p n st m).2.2 = st.2.2 ++ [r] := by
  cases hp : p.position <;> simp [PatternPatch.editStep, hp]

theorem patternEditFold_regions_length (p : PatternPatch) (n : Nat) :
    ∀ (ms : List (Nat × Buf)) (st : Buf × Int × List ByteRegion),
      ((ms.foldl (PatternPatch.editStep p n) st).2.2).length = st.2.2.length + ms.length := by
  intro ms
  induction ms with
  | nil => intro st; simp
  | cons m rest ih =>
    intro st
    rw [List.foldl_cons, ih]
    obtain ⟨r, hr⟩ := patternEditStep_regions p n st m
    simp [hr]
    omega

theorem patternApply_main (p : PatternPatch) (target buf : Buf) (path : String)
    (hcan : p.target.can_apply target = true)
    (hwm : (PatternPatch.wmLines p).isEmpty = false)
    (hfound : (PatternPatch.foundMatches p (splitInclusive 10 buf)).isEmpty = false) :
    PatternPatch.apply p target buf path =
      some (((PatternPatch.appliedMatches p (splitInclusive 10 buf)).foldl
          (PatternPatch.editStep p (PatternPatch.wmLines p).length) (buf, 0, [])).1,
        { patch_source := { file := path, pattern := some p.pattern, patch_type := .Pattern }
          regions := ((PatternPatch.appliedMatches p (splitInclusive 10 buf)).foldl
            (PatternPatch.editStep p (PatternPatch.wmLines p).length) (buf, 0, [])).2.2
          warnings :=
            if (PatternPatch.timesWarnings p (splitInclusive 10 buf)).isEmpty then none
            else some (PatternPatch.timesWarnings p (splitInclusive 10 buf)) }) := by
  unfold PatternPatch.apply
  rw [if_neg (by simp [hcan]), if_neg (by simp [hwm])]
  simp only [hfound]
  rfl

theorem patternApply_nomatch (p : PatternPatch) (target buf : Buf) (path : String)
    (hcan : p.target.can_apply target = true)
    (hwm : (PatternPatch.wmLines p).isEmpty = false)
    (hfound : (PatternPatch.foundMatches p (splitInclusive 10 buf)).isEmpty = true) :
    PatternPatch.apply p target buf path =
      some (buf, PatternPatch.warnEntry p path .noMatches) := by
  unfold PatternPatch.apply
  rw [if_neg (by simp [hcan]), if_neg (by simp [hwm])]
  simp only [hfound]
  rfl

theorem regexApply_nomatch (p : RegexPatch) (target rope : Buf)
    (htarget : p.target = target)
    (hemp : (p.captures rope).isEmpty = true) :
    RegexPatch.apply p target rope = some (rope, false, [Warning.noMatches]) := by
  unfold RegexPatch.apply
  rw [if_neg (by simp [htarget])]
  simp only [hemp]
  rfl

theorem regexApply_main (p : RegexPatch) (target rope : Buf)
    (htarget : p.target = target)
    (hemp : (p.captures rope).isEmpty = false) :
    RegexPatch.apply p target rope =
      ((RegexPatch.appliedCaptures p rope).foldlM (RegexPatch.applyGroups p)
          (rope, 0)).map
        (fun st => (st.1, true, RegexPatch.timesWarnings p rope)) := by
  unfold RegexPatch.apply
  rw [if_neg (by simp [htarget])]
  simp only [hemp]
  cases hfold : (RegexPatch.appliedCaptures p rope).foldlM (RegexPatch.applyGroups p)
    (rope, 0) <;> simp [hfold]

/-- C5.  For pattern patches (pattern.rs lines 106-134) and regex patches
(regex.rs lines 69-88) with `times = n`: fewer matches than `n` produces
a warning; more matches than `n` truncates the applied list to the first
`n` and produces a warning; the number of matches actually applied —
regions recorded for a pattern patch, captures iterated for a regex
patch — never exceeds `n`. -/
theorem times_is_respected :
    (∀ (p : PatternPatch) (target buf : Buf) (path : String) (t : Nat) (b2 : Buf)
        (e : ByteDebugEntry),
        p.times = some t →
        (PatternPatch.wmLines p).isEmpty = false →
        PatternPatch.apply p target buf path = some (b2, e) →
        e.regions.length ≤ t ∧
        ((PatternPatch.foundMatches p (splitInclusive 10 buf)).length < t →
          e.warnings ≠ none) ∧
        (t < (PatternPatch.foundMatches p (splitInclusive 10 buf)).length →
          e.regions.length = t ∧ e.warnings ≠ none)) ∧
    (∀ (p : RegexPatch) (target rope : Buf) (t : Nat) (r2 : Buf) (b : Bool)
        (ws : List Warning),
        p.times = some t →
        p.target = target →
        RegexPatch.apply p target rope = some (r2, b, ws) →
        (RegexPatch.appliedCaptures p rope).length ≤ t ∧
        ((p.captures rope).length < t → ws ≠ []) ∧
        (t < (p.captures rope).length →
          (RegexPatch.appliedCaptures p rope).length = t ∧ ws ≠ [])) := by
  constructor
  · intro p target buf path t b2 e ht hwm happly
    by_cases hcan : p.target.can_apply target = true
    case neg =>
      exfalso
      unfold PatternPatch.apply at happly
      rw [if_pos (by simp [hcan])] at happly
      exact Option.noConfusion happly
    by_cases hfound : (PatternPatch.foundMatches p (splitInclusive 10 buf)).isEmpty = true
    · rw [patternApply_nomatch p target buf path hcan hwm hfound] at happly
      injection happly with h'
      injection h' with h1 h2
      have hlen : (PatternPatch.foundMatches p (splitInclusive 10 buf)).length = 0 :=
        List.isEmpty_iff_length_eq_zero.mp hfound
      refine ⟨?_, ?_, ?_⟩
      · simp [← h2, PatternPatch.warnEntry]
      · intro _; simp [← h2, PatternPatch.warnEntry]
      · intro hgt; omega
    · have hfound2 : (PatternPatch.foundMatches p (splitInclusive 10 buf)).isEmpty = false := by
        simpa using hfound
      rw [patternApply_main p target buf path hcan hwm hfound2] at happly
      injection happly with h'
      injection h' with h1 h2
      have hreg : e.regions.length =
          (PatternPatch.appliedMatches p (splitInclusive 10 buf)).length := by
        rw [← h2]
        simpa using patternEditFold_regions_length p (PatternPatch.wmLines p).length
          (PatternPatch.appliedMatches p (splitInclusive 10 buf)) (buf, 0, [])
      have happlied : (PatternPatch.appliedMatches p (splitInclusive 10 buf)).length =
          min t (PatternPatch.foundMatches p (splitInclusive 10 buf)).length := by
        unfold PatternPatch.appliedMatches
        rw [ht]
        by_cases hgt : (PatternPatch.foundMatches p (splitInclusive 10 buf)).length > t <;>
          simp [hgt, List.length_take] <;> omega
      have hwarn : e.warnings =
          if (PatternPatch.timesWarnings p (splitInclusive 10 buf)).isEmpty then none
          else some (PatternPatch.timesWarnings p (splitInclusive 10 buf)) := by
        rw [← h2]
      refine ⟨by omega, ?_, ?_⟩
      · intro hlt
        have hw : PatternPatch.timesWarnings p (splitInclusive 10 buf) =
            [Warning.countMismatch
              (PatternPatch.foundMatches p (splitInclusive 10 buf)).length t] := by
          unfold PatternPatch.timesWarnings
          rw [ht]
          simp [hlt, Nat.lt_asymm hlt]
        rw [hwarn, hw]
        simp
      · intro hgt
        refine ⟨by omega, ?_⟩
        have hw : (PatternPatch.timesWarnings p (splitInclusive 10 buf)).isEmpty = false := by
          unfold PatternPatch.timesWarnings
          rw [ht]
          simp [hgt]
        rw [hwarn, hw]
        simp
  · intro p target rope t r2 b ws ht htarget happly
    by_cases hemp : (p.captures rope).isEmpty = true
    · rw [regexApply_nomatch p target rope htarget hemp] at happly
      injection happly with h'
      injection h' with h1 h2
      injection h2 with h2a h2b
      have hlen : (p.captures rope).length = 0 := List.isEmpty_iff_length_eq_zero.mp hemp
      refine ⟨?_, ?_, ?_⟩
      · unfold RegexPatch.appliedCaptures
        rw [ht]
        by_cases hgt : (p.captures rope).length > t <;>
          simp [hgt, List.length_take] <;> omega
      · intro _
        rw [← h2b]
        simp
      · intro hgt; omega
    · have hemp2 : (p.captures rope).isEmpty = false := by simpa using hemp
      rw [regexApply_main p target rope htarget hemp2] at happly
      have happlied : (RegexPatch.appliedCaptures p rope).length =
          min t (p.captures rope).length ∨
          (RegexPatch.appliedCaptures p rope).length = (p.captures rope).length ∧
            ¬ (p.captures rope).length > t := by
        left
        unfold RegexPatch.appliedCaptures
        rw [ht]
        by_cases hgt : (p.captures rope).length > t <;>
          simp [hgt, List.length_take] <;> omega
      obtain ⟨st, hfold, hst⟩ := Option.map_eq_some'.mp happly
      injection hst with hs1 hs2
      injection hs2 with hs2a hs2b
      refine ⟨?_, ?_, ?_⟩
      · rcases happlied with h | ⟨h, _⟩ <;> omega
      · intro hlt
        have hw : RegexPatch.timesWarnings p rope =
            [Warning.countMismatch (p.captures rope).length t] := by
          unfold RegexPatch.timesWarnings
          rw [ht]
          simp [hlt, Nat.lt_asymm hlt]
        rw [← hs2b, hw]
        simp
      · intro hgt
        refine ⟨by rcases happlied with h | ⟨h, hh⟩ <;> omega, ?_⟩
        have hw : (RegexPatch.timesWarnings p rope).isEmpty = false := by
          unfold RegexPatch.timesWarnings
          rw [ht]
          simp [hgt]
        rw [← hs2b]
        intro hcon
        rw [hcon] at hw
        simp at hw


/-- Witness for C5: a pattern patch asking for two matches that finds one
(warning recorded, one region applied), and a regex patch asking for one
match whose engine finds none. -/
theorem times_is_respected_witness :
    (({ patch_source := { file := "p", pattern := some (str2b "B"), patch_type := .Pattern }
        regions := [⟨0, 2, 2⟩]
        warnings := some [Warning.countMismatch 1 2] } : ByteDebugEntry).regions.length ≤ 2 ∧
      ((PatternPatch.foundMatches timesTwoPatch (splitInclusive 10 (str2b "B\n"))).length < 2 →
        ({ patch_source := { file := "p", pattern := some (str2b "B"), patch_type := .Pattern }
           regions := [⟨0, 2, 2⟩]
           warnings := some [Warning.countMismatch 1 2] } : ByteDebugEntry).warnings ≠ none) ∧
      (2 < (PatternPatch.foundMatches timesTwoPatch (splitInclusive 10 (str2b "B\n"))).length →
        ({ patch_source := { file := "p", pattern := some (str2b "B"), patch_type := .Pattern }
           regions := [⟨0, 2, 2⟩]
           warnings := some [Warning.countMismatch 1 2] } : ByteDebugEntry).regions.length = 2 ∧
        ({ patch_source := { file := "p", pattern := some (str2b "B"), patch_type := .Pattern }
           regions := [⟨0, 2, 2⟩]
           warnings := some [Warning.countMismatch 1 2] } : ByteDebugEntry).warnings ≠ none)) ∧
    ((RegexPatch.appliedCaptures timesOneRegex []).length ≤ 1 ∧
      ((timesOneRegex.captures []).length < 1 → ([Warning.noMatches] : List Warning) ≠ []) ∧
      (1 < (timesOneRegex.captures []).length →
        (RegexPatch.appliedCaptures timesOneRegex []).length = 1 ∧
          ([Warning.noMatches] : List Warning) ≠ [])) :=
  ⟨times_is_respected.1 timesTwoPatch (str2b "T") (str2b "B\n") "p" 2 (str2b "P\nB\n")
      { patch_source := { file := "p", pattern := some (str2b "B"), patch_type := .Pattern }
        regions := [⟨0, 2, 2⟩]
        warnings := some [Warning.countMismatch 1 2] }
      rfl (by decide) (by decide),
    times_is_respected.2 timesOneRegex (str2b "T") [] 1 [] false [Warning.noMatches]
      rfl rfl (by decide)⟩

/-- Every index recorded by the scan loop is at or after the start
index. -/
theorem findMatchesGo_lb (wm lines : List Buf) (mi : Bool) :
    ∀ (fuel i : Nat) (x : Nat × Buf),
      x ∈ PatternPatch.findMatchesGo wm lines mi fuel i → i ≤ x.1 := by
  intro fuel
  induction fuel with
  | zero => intro i x hx; simp [PatternPatch.findMatchesGo] at hx
  | succ fuel ih =>
    intro i x hx
    unfold PatternPatch.findMatchesGo at hx
    by_cases hle : i + wm.length ≤ lines.length
    · rw [if_pos hle] at hx
      by_cases hwin : PatternPatch.windowMatches wm lines i = true
      · rw [if_pos hwin] at hx
        rcases List.mem_cons.mp hx with h | h
        · subst h; exact Nat.le_refl _
        · exact le_trans (Nat.le_add_right _ _) (ih (i + wm.length) x h)
      · rw [if_neg hwin] at hx
        exact le_trans (Nat.le_succ _) (ih (i + 1) x hx)
    · rw [if_neg hle] at hx
      simp at hx

/-- Every index recorded by the scan loop is a matching window. -/
theorem findMatchesGo_sound (wm lines : List Buf) (mi : Bool) :
    ∀ (fuel i : Nat) (x : Nat × Buf),
      x ∈ PatternPatch.findMatchesGo wm lines mi fuel i →
      PatternPatch.windowMatches wm lines x.1 = true := by
  intro fuel
  induction fuel with
  | zero => intro i x hx; simp [PatternPatch.findMatchesGo] at hx
  | succ fuel ih =>
    intro i x hx
    unfold PatternPatch.findMatchesGo at hx
    by_cases hle : i + wm.length ≤ lines.length
    · rw [if_pos hle] at hx
      by_cases hwin : PatternPatch.windowMatches wm lines i = true
      · rw [if_pos hwin] at hx
        rcases List.mem_cons.mp hx with h | h
        · subst h; exact hwin
        · exact ih (i + wm.length) x h
      · rw [if_neg hwin] at hx
        exact ih (i + 1) x hx
    · rw [if_neg hle] at hx
      simp at hx

/-- Recorded matches are non-overlapping: each later index lies at least
a window size after each earlier one. -/
theorem findMatchesGo_pairwise (wm lines : List Buf) (mi : Bool) :
    ∀ (fuel i : Nat),
      (PatternPatch.findMatchesGo wm lines mi fuel i).Pairwise
        (fun a b => a.1 + wm.length ≤ b.1) := by
  intro fuel
  induction fuel with
  | zero => intro i; simp [PatternPatch.findMatchesGo]
  | succ fuel ih =>
    intro i
    unfold PatternPatch.findMatchesGo
    by_cases hle : i + wm.length ≤ lines.length
    · rw [if_pos hle]
      by_cases hwin : PatternPatch.windowMatches wm lines i = true
      · rw [if_pos hwin]
        refine List.pairwise_cons.mpr ⟨?_, ih (i + wm.length)⟩
        intro y hy
        exact findMatchesGo_lb wm lines mi fuel (i + wm.length) y hy
      · rw [if_neg hwin]
        exact ih (i + 1)
    · rw [if_neg hle]
      simp

/-- C1 (amended: a window matches iff each of its lines, trimmed on both
sides, matches the corresponding wildcard — the source calls
`source.trim()`, not a left trim).  The pattern is split into trimmed
wildcard lines; the scan slides a window of that size, records only
matching windows, and advances by the window size on a hit (matches are
non-overlapping) and by one otherwise; Before inserts the
newline-terminated payload at the matched block's first-line byte
offset, After at the last line's end, and At deletes the block and
inserts the payload in its place; on buffer A, B, C (newline separated)
with pattern B, position At, payload B1, B2, the result interleaves the
replacement exactly as claimed. -/
theorem pattern_block_rewrite_semantics :
    (∀ (p : PatternPatch) (lines : List Buf) (x : Nat × Buf),
        x ∈ PatternPatch.foundMatches p lines →
        PatternPatch.windowMatches (PatternPatch.wmLines p) lines x.1 = true) ∧
    (∀ (p : PatternPatch) (lines : List Buf),
        (PatternPatch.foundMatches p lines).Pairwise
          (fun a b => a.1 + (PatternPatch.wmLines p).length ≤ b.1)) ∧
    (∀ (p : PatternPatch) (n : Nat) (buf : Buf) (ld : Int) (regs : List ByteRegion)
        (i : Nat) (ind : Buf),
        (PatternPatch.editStep p n (buf, ld, regs) (i, ind)).1 =
          (match p.position with
           | .before => insertAt buf
               (byteOfLine (splitInclusive 10 buf) (satAddSigned i ld))
               (PatternPatch.indentedPayload p ind)
           | .after => insertAt buf
               (byteOfLine (splitInclusive 10 buf) (satAddSigned i ld + n))
               (PatternPatch.indentedPayload p ind)
           | .at => insertAt
               (deleteRange buf (byteOfLine (splitInclusive 10 buf) (satAddSigned i ld))
                 (byteOfLine (splitInclusive 10 buf) (satAddSigned i ld + n)))
               (byteOfLine (splitInclusive 10 buf) (satAddSigned i ld))
               (PatternPatch.indentedPayload p ind))) ∧
    PatternPatch.apply scenario2Patch (str2b "T") (str2b "A\nB\nC\n") "p" =
      some (str2b "A\nB1\nB2\nC\n",
        { patch_source := { file := "p", pattern := some (str2b "B"), patch_type := .Pattern }
          regions := [⟨2, 8, 4⟩]
          warnings := none }) := by
  refine ⟨?_, ?_, ?_, by decide⟩
  · intro p lines x hx
    exact findMatchesGo_sound (PatternPatch.wmLines p) lines p.match_indent
      (lines.length + 1) 0 x hx
  · intro p lines
    exact findMatchesGo_pairwise (PatternPatch.wmLines p) lines p.match_indent
      (lines.length + 1) 0
  · intro p n buf ld regs i ind
    cases hp : p.position <;> simp [PatternPatch.editStep, hp]

/-- Witness for C1: the match the scan records on the scenario-2 buffer
is a matching window. -/
theorem pattern_block_rewrite_semantics_witness :
    PatternPatch.windowMatches (PatternPatch.wmLines scenario2Patch)
      (splitInclusive 10 (str2b "A\nB\nC\n")) 1 = true :=
  pattern_block_rewrite_semantics.1 scenario2Patch
    (splitInclusive 10 (str2b "A\nB\nC\n")) (1, []) (by decide)

/-- Counterexample for C1 as stated: on the one-line buffer containing B
followed by a space, the engine does apply the patch (the buffer is
rewritten, so the window counted as a match), although the line
left-trimmed does not match the wildcard B — matching trims both ends,
not just the left. -/
theorem pattern_left_trim_refuted :
    (PatternPatch.apply trailingWsPatch (str2b "T") (str2b "B \n") "p").map Prod.fst =
      some (str2b "P\nB \n") ∧
    str2b "P\nB \n" ≠ str2b "B \n" ∧
    splitInclusive 10 (str2b "B \n") = [str2b "B \n"] ∧
    wildMatch (PatternPatch.wmLines trailingWsPatch).head!
      (trimStart (str2b "B \n")) = false := by
  refine ⟨by decide, by decide, by decide, by decide⟩

/-- Appending items: each step inserts a newline at the end and then the
item at the new end. -/
theorem placeFold_append (items : List Buf) :
    ∀ (buf : Buf) (b0 a0 : Nat),
      ((items.foldl (CopyPatch.placeItem .appendPos) (buf, b0, a0)).1 =
        buf ++ (items.map (fun it => 10 :: it)).flatten) := by
  induction items with
  | nil => intro buf b0 a0; simp
  | cons a rest ih =>
    intro buf b0 a0
    rw [List.foldl_cons]
    have hstep : (CopyPatch.placeItem .appendPos (buf, b0, a0) a) =
        (buf ++ 10 :: a, b0, a0 + (a.length + 1)) := by
      simp only [CopyPatch.placeItem, insertAt_length]
      simp
    rw [hstep, ih]
    simp

/-- Prepending items: each step inserts a newline at offset zero and
then the item at offset zero, so later items end up in front. -/
theorem placeFold_prepend (items : List Buf) :
    ∀ (buf : Buf) (b0 a0 : Nat),
      ((items.foldl (CopyPatch.placeItem .prependPos) (buf, b0, a0)).1 =
        (items.reverse.map (fun it => it ++ [10])).flatten ++ buf) := by
  induction items with
  | nil => intro buf b0 a0; simp
  | cons a rest ih =>
    intro buf b0 a0
    rw [List.foldl_cons]
    have hstep : (CopyPatch.placeItem .prependPos (buf, b0, a0) a) =
        (a ++ 10 :: buf, b0 + (a.length + 1), a0) := by
      simp [CopyPatch.placeItem, insertAt_zero]
    rw [hstep, ih]
    simp

/-- The copy source loop equals reading all sources and then placing
their contents in order. -/
theorem readPlace_eq (read : String → Option Buf) (pos : CopyPosition) :
    ∀ (srcs : List String) (st : Buf × Nat × Nat),
      CopyPatch.readPlace read pos srcs st =
        (readAll read srcs).map (fun cs => cs.foldl (CopyPatch.placeItem pos) st) := by
  intro srcs
  induction srcs with
  | nil => intro st; rfl
  | cons a rest ih =>
    intro st
    unfold CopyPatch.readPlace readAll
    cases hr : read a with
    | none => rfl
    | some c =>
      dsimp only
      rw [ih]
      cases hm : readAll read rest <;> simp [hm]

/-- Shape of a matching copy application: the buffer part of the result
is the placement fold over source contents followed by the payload. -/
theorem copyApply_shape (read : String → Option Buf) (p : CopyPatch) (target buf : Buf)
    (path : String) (cs : List Buf)
    (hcan : p.target.can_apply target = true)
    (hs : readAll read (p.sources.getD []) = some cs) :
    (CopyPatch.apply read p target buf path).map (Option.map Prod.fst) =
      some (some (((cs ++ p.payload.toList).foldl (CopyPatch.placeItem p.position)
        (buf, 0, 0)).1)) := by
  unfold CopyPatch.apply
  rw [if_neg (by simp [hcan])]
  rw [readPlace_eq read p.position (p.sources.getD []) (buf, 0, 0), hs]
  cases hp : p.payload with
  | none => simp
  | some pl => simp [List.foldl_concat]

/-- C8 (amended: when appending, each item — sources in order, then the
payload — is inserted as one newline followed by the item, so the added
text is newline-item per item with no trailing newline; when prepending,
each item is inserted at offset zero as item-newline, so later items
precede earlier ones).  In particular Append with payload consisting of
a comment line onto buffer X yields X, newline, payload, with no final
newline. -/
theorem copy_concatenation_shape :
    ∀ (read : String → Option Buf) (p : CopyPatch) (target buf : Buf) (path : String)
      (cs : List Buf),
      p.target.can_apply target = true →
      readAll read (p.sources.getD []) = some cs →
      (p.position = .appendPos →
        (CopyPatch.apply read p target buf path).map (Option.map Prod.fst) =
          some (some (buf ++ ((cs ++ p.payload.toList).map (fun it => 10 :: it)).flatten))) ∧
      (p.position = .prependPos →
        (CopyPatch.apply read p target buf path).map (Option.map Prod.fst) =
          some (some ((((cs ++ p.payload.toList).reverse.map (fun it => it ++ [10])).flatten)
            ++ buf))) := by
  intro read p target buf path cs hcan hs
  constructor
  · intro hpos
    rw [copyApply_shape read p target buf path cs hcan hs, hpos]
    rw [placeFold_append (cs ++ p.payload.toList) buf 0 0]
  · intro hpos
    rw [copyApply_shape read p target buf path cs hcan hs, hpos]
    rw [placeFold_prepend (cs ++ p.payload.toList) buf 0 0]

/-- Counterexample for C8 as stated: the copy patch of spec scenario 4
(payload only, Append) applied to buffer X produces X, newline, payload
— without the claimed trailing newline. -/
theorem copy_append_trailing_newline_refuted :
    (CopyPatch.apply (fun _ => none) scenario4Patch (str2b "T") (str2b "X") "p").map
        (Option.map Prod.fst) = some (some (str2b "X\n-- end")) ∧
    str2b "X\n-- end" ≠ str2b "X\n-- end\n" := by
  exact ⟨by decide, by decide⟩

/-- Witness for C8 at a prepend patch with one source and a payload. -/
theorem copy_concatenation_shape_witness :
    (CopyPatch.apply fsA prependWitnessPatch (str2b "T") (str2b "X") "p").map
        (Option.map Prod.fst) = some (some (str2b "Q\na\nX")) :=
  ((copy_concatenation_shape fsA prependWitnessPatch (str2b "T") (str2b "X") "p"
    [[97]] (by decide) (by decide)).2 rfl).trans (by decide)

/-- C9 (amended: copy sources are resolved to paths at load time, but
`CopyPatch::apply` re-reads every source from the filesystem on each
application, so the applied text is whatever the filesystem holds at
apply time). -/
theorem copy_sources_read_at_apply :
    ∀ (read : String → Option Buf) (p : CopyPatch) (target buf : Buf) (path : String)
      (s : String) (c : Buf),
      p.sources = some [s] → p.payload = none → p.position = .appendPos →
      p.target.can_apply target = true → read s = some c →
      (CopyPatch.apply read p target buf path).map (Option.map Prod.fst) =
        some (some (buf ++ 10 :: c)) := by
  intro read p target buf path s c hsrc hpl hpos hcan hr
  have hs : readAll read (p.sources.getD []) = some [c] := by
    rw [hsrc]
    simp [readAll, hr]
  have := (copy_concatenation_shape read p target buf path [c] hcan hs).1 hpos
  rw [this, hpl]
  simp

/-- Counterexample for C9 as stated: the same loaded copy patch applied
to the same buffer under two filesystem states produces different
results, so apply is not independent of on-disk changes after load. -/
theorem copy_sources_reread_refuted :
    CopyPatch.apply fsA oneSourcePatch (str2b "T") (str2b "X") "p" ≠
      CopyPatch.apply fsB oneSourcePatch (str2b "T") (str2b "X") "p" := by
  decide

/-- Witness for C9 at a concrete one-source append patch. -/
theorem copy_sources_read_at_apply_witness :
    (CopyPatch.apply fsA oneSourcePatch (str2b "T") (str2b "X") "p").map
        (Option.map Prod.fst) = some (some (str2b "X" ++ 10 :: [97])) :=
  copy_sources_read_at_apply fsA oneSourcePatch (str2b "T") (str2b "X") "p" "s" [97]
    rfl rfl rfl (by decide) (by decide)

/-- Folding `insert` over a list adds exactly its elements to the set. -/
theorem foldl_insert_mem (ss : List Buf) :
    ∀ (ts : Finset Buf) (s : Buf),
      (s ∈ ss.foldl (fun acc x => insert x acc) ts) ↔ s ∈ ts ∨ s ∈ ss := by
  induction ss with
  | nil => intro ts s; simp
  | cons a rest ih =>
    intro ts s
    rw [List.foldl_cons, ih]
    simp [Finset.mem_insert]
    tauto

/-- Counterexample for C7 as stated: `Target::insert_into` (lib.rs lines
648-660, the only insertion routine feeding the index) puts a target
string containing the glob character star straight into the exact-target
set; no code path stores it as a glob target instead. -/
theorem glob_targets_in_exact_set :
    str2b "a*" ∈ Target.insert_into (Target.Single (str2b "a*")) ∅ ∧
    (str2b "a*").contains 42 = true := by
  refine ⟨?_, by decide⟩
  show str2b "a*" ∈ insert (str2b "a*") ∅
  exact Finset.mem_insert_self _ _

/-- C7 (amended: every target string — glob or not — is inserted into
the single exact-target set; chunk-name lookup strips one leading
commercial-at, checks the exact set, then falls back to testing each
stored glob target; membership and glob matching are byte-exact, hence
case-sensitive). -/
theorem target_index_semantics :
    (∀ (t : Target) (ts : Finset Buf) (s : Buf),
        s ∈ Target.insert_into t ts ↔ s ∈ ts ∨ s ∈ Target.strings t) ∧
    (∀ (tbl : PatchTable) (target : Buf),
        tbl.needs_patching target = true ↔
          stripAt target ∈ tbl.targets ∨
            ∃ g ∈ tbl.glob_targets, wildMatch g (stripAt target) = true) ∧
    PatchTable.needs_patching
      { targets := {str2b "A"}, glob_targets := [], patches := [], vars := fun _ => none }
      (str2b "a") = false ∧
    stripAt (str2b "@demo.lua") = str2b "demo.lua" := by
  refine ⟨?_, ?_, by decide, by decide⟩
  · intro t ts s
    cases t with
    | Single x =>
      simp only [Target.insert_into, Target.strings, Finset.mem_insert, List.mem_singleton]
      tauto
    | Multi ss => simpa [Target.insert_into, Target.strings] using foldl_insert_mem ss ts s
  · intro tbl target
    unfold PatchTable.needs_patching
    by_cases hmem : stripAt target ∈ tbl.targets
    · simp [hmem]
    · simp [hmem, List.any_eq_true]

/-- Elements of a priority insertion come from the inserted element or
the list. -/
theorem mem_insertByPrio {α : Type} (key : α → Int) (x a : α) :
    ∀ l : List α, a ∈ insertByPrio key x l → a = x ∨ a ∈ l := by
  intro l
  induction l with
  | nil => intro h; simpa [insertByPrio] using h
  | cons y ys ih =>
    intro h
    unfold insertByPrio at h
    by_cases hk : key y ≤ key x
    · rw [if_pos hk] at h
      rcases List.mem_cons.mp h with h | h
      · exact Or.inr (h ▸ List.mem_cons_self y ys)
      · rcases ih h with h | h
        · exact Or.inl h
        · exact Or.inr (List.mem_cons_of_mem y h)
    · rw [if_neg hk] at h
      rcases List.mem_cons.mp h with h | h
      · exact Or.inl h
      · exact Or.inr h

/-- The stable priority sort permutes: members come from the input. -/
theorem mem_sortByPrio {α : Type} (key : α → Int) (a : α) :
    ∀ l : List α, a ∈ sortByPrio key l → a ∈ l := by
  intro l
  induction l with
  | nil => intro h; simpa [sortByPrio] using h
  | cons y ys ih =>
    intro h
    unfold sortByPrio at h
    rcases mem_insertByPrio key y a _ h with h | h
    · exact h ▸ List.mem_cons_self y ys
    · exact List.mem_cons_of_mem y (ih h)

/-- The module-patch counting loop stays at zero when no module patch
applies. -/
theorem modcount_zero (target : Buf) :
    ∀ (l : List (ModulePatch × Int × String)),
      (∀ y ∈ l, ModulePatch.apply y.1 target = false) →
      (l.foldl (fun n y => if ModulePatch.apply y.1 target then n + 1 else n) 0 = 0) := by
  have gen : ∀ (l : List (ModulePatch × Int × String)) (n : Nat),
      (∀ y ∈ l, ModulePatch.apply y.1 target = false) →
      l.foldl (fun n y => if ModulePatch.apply y.1 target then n + 1 else n) n = n := by
    intro l
    induction l with
    | nil => intro n _; rfl
    | cons a rest ih =>
      intro n h
      rw [List.foldl_cons, if_neg (by simp [h a (List.mem_cons_self a rest)])]
      exact ih n (fun y hy => h y (List.mem_cons_of_mem a hy))
  intro l h
  exact gen l 0 h

/-- The copy loop is the identity on its state when no copy patch's
target matches. -/
theorem copyfold_skip (read : String → Option Buf) (target : Buf) :
    ∀ (l : List (CopyPatch × Int × String)) (st : Buf × List ByteDebugEntry × Nat),
      (∀ y ∈ l, y.1.target.can_apply target = false) →
      l.foldlM (copyStep read target) st = some st := by
  intro l
  induction l with
  | nil => intro st _; rfl
  | cons a rest ih =>
    intro st h
    have hstep : copyStep read target st a = some st := by
      have hfalse : a.1.target.can_apply target = false := h a (List.mem_cons_self a rest)
      simp [copyStep, CopyPatch.apply, hfalse]
    rw [List.foldlM_cons, hstep]
    simpa using ih st (fun y hy => h y (List.mem_cons_of_mem a hy))

/-- The pattern loop is the identity on its state when no pattern
patch's target matches. -/
theorem patternfold_skip (target : Buf) :
    ∀ (l : List (PatternPatch × Int × String)) (st : Buf × List ByteDebugEntry × Nat),
      (∀ y ∈ l, y.1.target.can_apply target = false) →
      l.foldl (patternStep target) st = st := by
  intro l
  induction l with
  | nil => intro st _; rfl
  | cons a rest ih =>
    intro st h
    have hstep : patternStep target st a = st := by
      have hfalse : a.1.target.can_apply target = false := h a (List.mem_cons_self a rest)
      simp [patternStep, PatternPatch.apply, hfalse]
    rw [List.foldl_cons, hstep]
    exact ih st (fun y hy => h y (List.mem_cons_of_mem a hy))

/-- The interpolation scanner leaves a line without the token head
unchanged. -/
theorem varInterpGo_id (vars : Buf → Option Buf) :
    ∀ (fuel : Nat) (l : Buf), ¬ interpHeader <:+: l → varInterpGo vars fuel l = some l := by
  intro fuel
  induction fuel with
  | zero => intro l _; rfl
  | succ fuel ih =>
    intro l hni
    cases l with
    | nil => rfl
    | cons b rest =>
      unfold varInterpGo
      have hnp : interpHeader.isPrefixOf (b :: rest) = false := by
        by_contra hc
        exact hni (List.IsPrefix.isInfix
          (List.isPrefixOf_iff_prefix.mp (by simpa using hc)))
      rw [if_neg (by simp [hnp])]
      have hrest : ¬ interpHeader <:+: rest := fun hc => hni (List.infix_cons hc)
      rw [ih rest hrest]
      rfl

/-- `apply_var_interp` is the identity on a line not containing the
token head. -/
theorem apply_var_interp_id (vars : Buf → Option Buf) (l : Buf)
    (h : ¬ interpHeader <:+: l) : apply_var_interp vars l = some l :=
  varInterpGo_id vars l.length l h

/-- The interpolation pass is the identity on a buffer not containing
the token head. -/
theorem interpLines_id (vars : Buf → Option Buf) (buf : Buf)
    (h : ¬ interpHeader <:+: buf) : interpLines vars buf = some buf := by
  unfold interpLines
  have hlines : (splitInclusive 10 buf).mapM (apply_var_interp vars) =
      some (splitInclusive 10 buf) := by
    have : ∀ (pieces : List Buf), (∀ x ∈ pieces, ¬ interpHeader <:+: x) →
        pieces.mapM (apply_var_interp vars) = some pieces := by
      intro pieces
      induction pieces with
      | nil => intro _; rfl
      | cons a rest ih =>
        intro hall
        rw [List.mapM_cons, apply_var_interp_id vars a (hall a (List.mem_cons_self a rest)),
          ih (fun x hx => hall x (List.mem_cons_of_mem a hx))]
        rfl
    exact this _ (fun x hx => fun hc =>
      h (hc.trans (splitInclusive_piece_within hx)))
  rw [hlines]
  simp [splitInclusive_flatten]

/-- C4 (amended: when no patch in the catalog matches the chunk name,
`apply_patches` returns the buffer with only variable interpolation
applied — so the buffer comes back unchanged exactly when interpolation
does not alter it, in particular when it contains no interpolation
tokens; registered tokens are substituted, unregistered ones panic). -/
theorem unmatched_apply_interp_only :
    ∀ (read : String → Option Buf) (tbl : PatchTable) (target buf : Buf),
      (∀ x ∈ tbl.patches, Patch.matchesTarget x.1 (stripAt target) = false) →
      (PatchTable.apply_patches read tbl target buf =
        (interpLines tbl.vars buf).map (fun b2 => (b2, [], 0))) ∧
      (¬ interpHeader <:+: buf →
        PatchTable.apply_patches read tbl target buf = some (buf, [], 0)) := by
  intro read tbl target buf hnm
  have hmod : ∀ y ∈ sortByPrio (fun y => y.2.1)
      ((tbl.patches.filterMap
        (fun y => match y.1 with | .module m => some (m, y.2) | _ => none)).filter
        (fun y => y.1.load_now)),
      ModulePatch.apply y.1 (stripAt target) = false := by
    intro y hy
    have hy2 := List.mem_filter.mp (mem_sortByPrio _ y _ hy)
    obtain ⟨x, hx, hsel⟩ := List.mem_filterMap.mp hy2.1
    cases hp : x.1 with
    | module m =>
      rw [hp] at hsel
      simp only [Option.some.injEq] at hsel
      have := hnm x hx
      rw [hp] at this
      simp only [Patch.matchesTarget] at this
      subst hsel
      simp [ModulePatch.apply, this]
    | pattern p => rw [hp] at hsel; simp at hsel
    | copy c => rw [hp] at hsel; simp at hsel
  have hcopy : ∀ y ∈ sortByPrio (fun y => y.2.1)
      (tbl.patches.filterMap
        (fun y => match y.1 with | .copy c => some (c, y.2) | _ => none)),
      y.1.target.can_apply (stripAt target) = false := by
    intro y hy
    obtain ⟨x, hx, hsel⟩ := List.mem_filterMap.mp (mem_sortByPrio _ y _ hy)
    cases hp : x.1 with
    | copy c =>
      rw [hp] at hsel
      simp only [Option.some.injEq] at hsel
      have := hnm x hx
      rw [hp] at this
      simp only [Patch.matchesTarget] at this
      subst hsel
      simpa using this
    | pattern p => rw [hp] at hsel; simp at hsel
    | module m => rw [hp] at hsel; simp at hsel
  have hpat : ∀ y ∈ sortByPrio (fun y => y.2.1)
      (tbl.patches.filterMap
        (fun y => match y.1 with | .pattern pp => some (pp, y.2) | _ => none)),
      y.1.target.can_apply (stripAt target) = false := by
    intro y hy
    obtain ⟨x, hx, hsel⟩ := List.mem_filterMap.mp (mem_sortByPrio _ y _ hy)
    cases hp : x.1 with
    | pattern p =>
      rw [hp] at hsel
      simp only [Option.some.injEq] at hsel
      have := hnm x hx
      rw [hp] at this
      simp only [Patch.matchesTarget] at this
      subst hsel
      simpa using this
    | copy c => rw [hp] at hsel; simp at hsel
    | module m => rw [hp] at hsel; simp at hsel
  have hmain : PatchTable.apply_patches read tbl target buf =
      (interpLines tbl.vars buf).map (fun b2 => (b2, [], 0)) := by
    simp only [PatchTable.apply_patches]
    rw [modcount_zero (stripAt target) _ hmod]
    rw [copyfold_skip read (stripAt target) _ (buf, [], 0) hcopy]
    simp only [Option.bind_eq_bind, Option.some_bind]
    rw [patternfold_skip (stripAt target) _ (buf, [], 0) hpat]
    cases hi : interpLines tbl.vars buf <;> simp [hi]
  refine ⟨hmain, fun hni => ?_⟩
  rw [hmain, interpLines_id tbl.vars buf hni]
  rfl

/-- Counterexample for C4 as stated: with an empty catalog (so no patch
matches) and a registered variable A = x, a buffer consisting of the
interpolation token naming A comes back as x, not unchanged. -/
theorem unmatched_buffer_still_interpolated :
    PatchTable.apply_patches (fun _ => none) tblVarsOnly (str2b "T") bufTokenA =
      some ([120], [], 0) ∧ ([120] : Buf) ≠ bufTokenA :=
  ⟨by decide, by decide⟩

/-- Witness for C4 on a token-free buffer under an empty catalog. -/
theorem unmatched_apply_interp_only_witness :
    PatchTable.apply_patches (fun _ => none) tblVarsOnly (str2b "T") (str2b "Z") =
      some (str2b "Z", [], 0) :=
  (unmatched_apply_interp_only (fun _ => none) tblVarsOnly (str2b "T") (str2b "Z")
    (by simp [tblVarsOnly])).2 (by decide)

/-- Region adjustment changes neither an entry's patch type nor whether
it has regions. -/
theorem countedEntry_adjust (e : ByteDebugEntry) (pos : Nat) (d : Int) :
    countedEntry (e.adjust pos d) = countedEntry e := by
  cases hr : e.regions <;> simp [countedEntry, ByteDebugEntry.adjust, hr]

/-- Adjusting prior entries preserves how many of them are counted. -/
theorem countP_adjustPrev (rs : List ByteRegion) :
    ∀ (es : List ByteDebugEntry),
      (adjustPrevEntries es rs).countP countedEntry = es.countP countedEntry := by
  unfold adjustPrevEntries
  induction rs with
  | nil => intro es; rfl
  | cons r rest ih =>
    intro es
    rw [List.foldl_cons, ih]
    have : ∀ (es : List ByteDebugEntry),
        (es.map (fun e => e.adjust r.start r.delta)).countP countedEntry =
          es.countP countedEntry := by
      intro es
      induction es with
      | nil => rfl
      | cons a tail ih2 => simp [List.countP_cons, ih2, countedEntry_adjust]
    exact this es

/-- A copy application's debug entry is tagged as a copy entry. -/
theorem copyApply_entry_type (read : String → Option Buf) (p : CopyPatch)
    (target buf : Buf) (path : String) (b : Buf) (e : ByteDebugEntry)
    (h : CopyPatch.apply read p target buf path = some (some (b, e))) :
    e.patch_source.patch_type = .Copy := by
  unfold CopyPatch.apply at h
  by_cases hcan : p.target.can_apply target = true
  · rw [if_neg (by simp [hcan])] at h
    cases hrp : CopyPatch.readPlace read p.position (p.sources.getD []) (buf, 0, 0) with
    | none => rw [hrp] at h; simp at h
    | some st =>
      rw [hrp] at h
      simp only [Option.bind_eq_bind, Option.some_bind] at h
      cases hpl : p.payload <;>
        · rw [hpl] at h
          simp only [Option.pure_def, Option.some.injEq] at h
          injection h with h1 h2
          rw [← h2]
  · rw [if_pos (by simp [hcan])] at h
    simp at h

/-- A pattern application's debug entry is tagged as a pattern entry. -/
theorem patternApply_entry_type (p : PatternPatch) (target buf : Buf) (path : String)
    (b : Buf) (e : ByteDebugEntry)
    (h : PatternPatch.apply p target buf path = some (b, e)) :
    e.patch_source.patch_type = .Pattern := by
  by_cases hcan : p.target.can_apply target = true
  case neg =>
    unfold PatternPatch.apply at h
    rw [if_pos (by simp [hcan])] at h
    exact Option.noConfusion h
  by_cases hwm : (PatternPatch.wmLines p).isEmpty = true
  · unfold PatternPatch.apply at h
    rw [if_neg (by simp [hcan]), if_pos (by simp [hwm])] at h
    injection h with h1
    injection h1 with h1 h2
    rw [← h2]
    rfl
  · have hwm2 : (PatternPatch.wmLines p).isEmpty = false := by simpa using hwm
    by_cases hfound : (PatternPatch.foundMatches p (splitInclusive 10 buf)).isEmpty = true
    · rw [patternApply_nomatch p target buf path hcan hwm2 hfound] at h
      injection h with h1
      injection h1 with h1 h2
      rw [← h2]
      rfl
    · have hfound2 : (PatternPatch.foundMatches p (splitInclusive 10 buf)).isEmpty = false := by
        simpa using hfound
      rw [patternApply_main p target buf path hcan hwm2 hfound2] at h
      injection h with h1
      injection h1 with h1 h2
      rw [← h2]

/-- The copy loop step preserves the counting invariant: the patch count
equals the number of counted entries. -/
theorem copyStep_inv (read : String → Option Buf) (target : Buf)
    (st st2 : Buf × List ByteDebugEntry × Nat) (y : CopyPatch × Int × String)
    (h : copyStep read target st y = some st2)
    (hP : st.2.2 = st.2.1.countP countedEntry) :
    st2.2.2 = st2.2.1.countP countedEntry := by
  unfold copyStep at h
  cases happ : CopyPatch.apply read y.1 target st.1 y.2.2 with
  | none => rw [happ] at h; simp at h
  | some o =>
    rw [happ] at h
    simp only [Option.bind_eq_bind, Option.some_bind] at h
    cases o with
    | none =>
      simp only [Option.pure_def, Option.some.injEq] at h
      rw [← h]
      exact hP
    | some pr =>
      obtain ⟨buf2, entry⟩ := pr
      simp only [Option.pure_def, Option.some.injEq] at h
      rw [← h]
      have htype := copyApply_entry_type read y.1 target st.1 y.2.2 buf2 entry happ
      have hcc : countedEntry entry = true := by simp [countedEntry, htype]
      simp [List.countP_append, countP_adjustPrev, List.countP_cons, hcc, hP]

/-- The copy loop preserves the counting invariant. -/
theorem copyfold_inv (read : String → Option Buf) (target : Buf) :
    ∀ (l : List (CopyPatch × Int × String)) (st st2 : Buf × List ByteDebugEntry × Nat),
      l.foldlM (copyStep read target) st = some st2 →
      st.2.2 = st.2.1.countP countedEntry →
      st2.2.2 = st2.2.1.countP countedEntry := by
  intro l
  induction l with
  | nil =>
    intro st st2 h hP
    simp only [List.foldlM_nil, Option.pure_def, Option.some.injEq] at h
    rw [← h]
    exact hP
  | cons a rest ih =>
    intro st st2 h hP
    rw [List.foldlM_cons] at h
    cases hstep : copyStep read target st a with
    | none => rw [hstep] at h; simp at h
    | some mid =>
      rw [hstep] at h
      simp only [Option.bind_eq_bind, Option.some_bind] at h
      exact ih mid st2 h (copyStep_inv read target st mid a hstep hP)

/-- The pattern loop step preserves the counting invariant. -/
theorem patternStep_inv (target : Buf) (st : Buf × List ByteDebugEntry × Nat)
    (y : PatternPatch × Int × String)
    (hP : st.2.2 = st.2.1.countP countedEntry) :
    (patternStep target st y).2.2 = (patternStep target st y).2.1.countP countedEntry := by
  unfold patternStep
  cases happ : PatternPatch.apply y.1 target st.1 y.2.2 with
  | none => exact hP
  | some pr =>
    obtain ⟨buf2, entry⟩ := pr
    have htype := patternApply_entry_type y.1 target st.1 y.2.2 buf2 entry happ
    have hcc : countedEntry entry = !entry.regions.isEmpty := by
      simp [countedEntry, htype]
    cases hre : entry.regions.isEmpty <;>
      simp [List.countP_append, countP_adjustPrev, List.countP_cons, hcc, hre, hP]

/-- The pattern loop preserves the counting invariant. -/
theorem patternfold_inv (target : Buf) :
    ∀ (l : List (PatternPatch × Int × String)) (st : Buf × List ByteDebugEntry × Nat),
      st.2.2 = st.2.1.countP countedEntry →
      (l.foldl (patternStep target) st).2.2 =
        (l.foldl (patternStep target) st).2.1.countP countedEntry := by
  intro l
  induction l with
  | nil => intro st hP; exact hP
  | cons a rest ih =>
    intro st hP
    rw [List.foldl_cons]
    exact ih (patternStep target st a) (patternStep_inv target st a hP)

/-- C6 (amended: the patch count equals the number of copy debug entries
plus the number of pattern debug entries with at least one region, and a
successful pattern application records one region per applied match — so
the total region count is the sum of per-entry region counts and can
exceed the application count). -/
theorem successful_count_bookkeeping :
    (∀ (read : String → Option Buf) (tbl : PatchTable) (target buf b : Buf)
        (entries : List ByteDebugEntry) (count : Nat),
        (∀ x ∈ tbl.patches, Patch.isModule x.1 = false) →
        PatchTable.apply_patches read tbl target buf = some (b, entries, count) →
        count = entries.countP countedEntry) ∧
    (∀ (p : PatternPatch) (t2 b2 : Buf) (path : String) (b3 : Buf) (e : ByteDebugEntry),
        p.target.can_apply t2 = true →
        (PatternPatch.wmLines p).isEmpty = false →
        (PatternPatch.foundMatches p (splitInclusive 10 b2)).isEmpty = false →
        PatternPatch.apply p t2 b2 path = some (b3, e) →
        e.regions.length = (PatternPatch.appliedMatches p (splitInclusive 10 b2)).length) := by
  constructor
  · intro read tbl target buf b entries count hnomod happly
    have hmodstream : (tbl.patches.filterMap
        (fun y => match y.1 with | .module m => some (m, y.2) | _ => none)) = [] := by
      rw [List.filterMap_eq_nil]
      intro x hx
      cases hp : x.1 with
      | module m =>
        exfalso
        have := hnomod x hx
        rw [hp] at this
        simp [Patch.isModule] at this
      | pattern pp => rfl
      | copy c => rfl
    simp only [PatchTable.apply_patches, hmodstream, List.filter_nil, sortByPrio,
      List.foldl_nil, Option.bind_eq_bind] at happly
    obtain ⟨st0, hst0, hrest⟩ := Option.bind_eq_some.mp happly
    obtain ⟨patched, hip, hfin⟩ := Option.bind_eq_some.mp hrest
    simp only [Option.pure_def, Option.some.injEq, Prod.mk.injEq] at hfin
    obtain ⟨h1, h2, h3⟩ := hfin
    have h0 : ((buf, ([] : List ByteDebugEntry), 0) : Buf × List ByteDebugEntry × Nat).2.2 =
        (((buf, ([] : List ByteDebugEntry), 0) :
          Buf × List ByteDebugEntry × Nat).2.1).countP countedEntry := by simp
    have hcopyinv := copyfold_inv read (stripAt target) _ (buf, [], 0) st0 hst0 h0
    have hinv := patternfold_inv (stripAt target)
      (sortByPrio (fun y => y.2.1)
        (tbl.patches.filterMap
          (fun y => match y.1 with | .pattern pp => some (pp, y.2) | _ => none)))
      st0 hcopyinv
    rw [← h3, ← h2]
    exact hinv
  · intro p t2 b2 path b3 e hcan hwm hfound happly
    rw [patternApply_main p t2 b2 path hcan hwm hfound] at happly
    injection happly with h1
    injection h1 with h1 h2
    rw [← h2]
    simpa using patternEditFold_regions_length p (PatternPatch.wmLines p).length
      (PatternPatch.appliedMatches p (splitInclusive 10 b2)) (b2, 0, [])

/-- Counterexample for C6 as stated: a single pattern patch matching
twice counts as one successful application but records two regions, so
the region total differs from the application count. -/
theorem one_application_two_regions :
    (PatchTable.apply_patches (fun _ => none) tblTwoHits (str2b "T")
        (str2b "B\nx\nB\n")).map
      (fun r => ((r.2.1.map (fun e => e.regions.length)).sum, r.2.2)) = some (2, 1) ∧
    (2 : Nat) ≠ 1 :=
  ⟨by decide, by decide⟩

/-- Witness for C6 at the two-hit catalog and a one-hit pattern patch. -/
theorem successful_count_bookkeeping_witness :
    ((1 : Nat) =
      ([{ patch_source := { file := "p", pattern := some (str2b "B"), patch_type := .Pattern }
          regions := [⟨0, 2, 2⟩, ⟨6, 8, 2⟩]
          warnings := none }] : List ByteDebugEntry).countP countedEntry) ∧
    (([⟨0, 2, 2⟩] : List ByteRegion).length =
      (PatternPatch.appliedMatches trailingWsPatch
        (splitInclusive 10 (str2b "B \n"))).length) :=
  ⟨successful_count_bookkeeping.1 (fun _ => none) tblTwoHits (str2b "T") (str2b "B\nx\nB\n")
      (str2b "P\nB\nx\nP\nB\n")
      [{ patch_source := { file := "p", pattern := some (str2b "B"), patch_type := .Pattern }
         regions := [⟨0, 2, 2⟩, ⟨6, 8, 2⟩]
         warnings := none }] 1 (by decide) (by decide),
    successful_count_bookkeeping.2 trailingWsPatch (str2b "T") (str2b "B \n") "p"
      (str2b "P\nB \n")
      { patch_source := { file := "p", pattern := some (str2b "B"), patch_type := .Pattern }
        regions := [⟨0, 2, 2⟩]
        warnings := none } (by decide) (by decide) (by decide) (by decide)⟩
